import Mathlib

/-!
Verification of the typst HTML-export core and the package-version model.

The definitions below shallowly embed the Rust sources:
* `crates/typst-syntax/src/package.rs` — `PackageVersion`, `VersionBound`,
  the `matches_*` comparison family, and the `Display`/`FromStr` pair
  (strings are modelled as `List Char`, `u32` as `Nat` with an explicit
  `< 2^32` bound where the Rust code can overflow).
* `crates/typst-html/src/lib.rs` — `HtmlElem` and its attribute/style
  combinators. The submodules missing from the excerpt (`attr`, `css`,
  `dom`, `encode`, `convert`, `rules`) are modelled from the spec and are
  marked as such in their doc comments.
-/

/- ## Package versions (`crates/typst-syntax/src/package.rs`) -/

/-- A package's version (`PackageVersion` in `package.rs`). The Rust fields
are `u32`; here they are `Nat`, with explicit `< 2^32` bounds supplied where
the Rust representation matters. -/
structure PackageVersion where
  major : Nat
  minor : Nat
  patch : Nat
deriving DecidableEq, Repr

/-- A version bound for compatibility specification (`VersionBound` in
`package.rs`). The source documents the invariant that `patch` can only be
present if `minor` is too, but the fields are public and the struct does not
enforce it. -/
structure VersionBound where
  major : Nat
  minor : Option Nat
  patch : Option Nat
deriving DecidableEq, Repr

/-- `PackageVersion::matches_eq`: an `==` match with the bound; version
elements missing in the bound are ignored. -/
def PackageVersion.matches_eq (v : PackageVersion) (b : VersionBound) : Bool :=
  v.major == b.major
    && b.minor.all (fun minor => v.minor == minor)
    && b.patch.all (fun patch => v.patch == patch)

/-- `PackageVersion::matches_gt`: a `>` match; succeeds only if some version
element in the bound is actually greater than that of the version. -/
def PackageVersion.matches_gt (v : PackageVersion) (b : VersionBound) : Bool :=
  if v.major != b.major then v.major > b.major
  else match b.minor with
    | none => false
    | some minor =>
      if v.minor != minor then v.minor > minor
      else match b.patch with
        | none => false
        | some patch =>
          if v.patch != patch then v.patch > patch
          else false

/-- `PackageVersion::matches_lt`: a `<` match; succeeds only if some version
element in the bound is actually less than that of the version. -/
def PackageVersion.matches_lt (v : PackageVersion) (b : VersionBound) : Bool :=
  if v.major != b.major then v.major < b.major
  else match b.minor with
    | none => false
    | some minor =>
      if v.minor != minor then v.minor < minor
      else match b.patch with
        | none => false
        | some patch =>
          if v.patch != patch then v.patch < patch
          else false

/-- `PackageVersion::matches_ge`: succeeds when either a `==` or `>` match
does. -/
def PackageVersion.matches_ge (v : PackageVersion) (b : VersionBound) : Bool :=
  v.matches_eq b || v.matches_gt b

/-- `PackageVersion::matches_le`: succeeds when either a `==` or `<` match
does. -/
def PackageVersion.matches_le (v : PackageVersion) (b : VersionBound) : Bool :=
  v.matches_eq b || v.matches_lt b

/- ### Display / FromStr for `PackageVersion`

The Rust `Display` impl writes `"{major}.{minor}.{patch}"` and `FromStr`
splits on `'.'`, requires exactly three non-empty parts, and parses each with
`u32::from_str`. Strings are modelled as `List Char`. -/

/-- Little-endian decimal digits of `n`, with explicit structural fuel so the
kernel can evaluate it. `toDigitsRev n n` is the digit list of `n` (empty for
`n = 0`). -/
def toDigitsRev : Nat → Nat → List Nat
  | 0, _ => []
  | fuel + 1, n => if n = 0 then [] else n % 10 :: toDigitsRev fuel (n / 10)

/-- Decimal representation of a natural number, as the Rust `Display` of a
`u32` renders it (no sign, no leading zeros, `0` as `"0"`). -/
def natRepr (n : Nat) : List Char :=
  if n = 0 then ['0'] else ((toDigitsRev n n).map Nat.digitChar).reverse

/-- `str::split('.')`: splits at every `'.'`, producing one (possibly empty)
part more than the number of dots; the empty string yields `[[]]`. -/
def splitOnDot : List Char → List (List Char)
  | [] => [[]]
  | c :: rest =>
    if c = '.' then [] :: splitOnDot rest
    else
      match splitOnDot rest with
      | [] => [[c]]
      | p :: ps => (c :: p) :: ps

/-- `u32::from_str`: an optional leading `'+'`, then one or more ASCII
digits whose value fits in 32 bits; anything else is rejected. -/
def parseU32 (p : List Char) : Option Nat :=
  let q := if p.head? = some '+' then p.drop 1 else p
  if q.isEmpty then none
  else if q.all (fun c => c.isDigit) then
    let n := q.foldl (fun acc c => acc * 10 + (c.toNat - 48)) 0
    if n < 4294967296 then some n else none
  else none

/-- One step of the `next` closure in `PackageVersion::from_str`: takes the
next part, treats an absent or empty part as a missing component, and parses
it as a `u32`. -/
def nextVersionPart (kind : String) (parts : List (List Char)) :
    Except String (Nat × List (List Char)) :=
  match parts with
  | [] => .error ("version number is missing " ++ kind ++ " version")
  | p :: ps =>
    if p.isEmpty then .error ("version number is missing " ++ kind ++ " version")
    else
      match parseU32 p with
      | some n => .ok (n, ps)
      | none => .error ("not a valid " ++ kind ++ " version")

/-- `impl FromStr for PackageVersion`: three dot-separated components, a
fourth component is an error. -/
def PackageVersion.fromStr (s : List Char) : Except String PackageVersion :=
  match nextVersionPart "major" (splitOnDot s) with
  | .error e => .error e
  | .ok (major, parts) =>
    match nextVersionPart "minor" parts with
    | .error e => .error e
    | .ok (minor, parts) =>
      match nextVersionPart "patch" parts with
      | .error e => .error e
      | .ok (patch, parts) =>
        if parts.isEmpty then .ok ⟨major, minor, patch⟩
        else .error "version number has unexpected fourth component"

/-- `impl Display for PackageVersion`: `"{major}.{minor}.{patch}"`. -/
def PackageVersion.display (v : PackageVersion) : List Char :=
  natRepr v.major ++ ('.' :: (natRepr v.minor ++ ('.' :: natRepr v.patch)))

/- ### Claims C9 and C10 -/

/-- C9 (counterexample): with the ill-formed but constructible bound
`{ major: 1, minor: None, patch: Some 0 }` (the fields of `VersionBound` are
public, so nothing prevents `patch` from being present while `minor` is
absent), the version `1.1.1` satisfies none of `matches_eq`, `matches_gt`,
`matches_lt`, so "exactly one of the three holds" fails, and `matches_ge`
is not the negation of `matches_lt`. -/
theorem claim9_counterexample :
    (PackageVersion.matches_eq ⟨1, 1, 1⟩ ⟨1, none, some 0⟩ ||
     PackageVersion.matches_gt ⟨1, 1, 1⟩ ⟨1, none, some 0⟩ ||
     PackageVersion.matches_lt ⟨1, 1, 1⟩ ⟨1, none, some 0⟩) = false ∧
    ¬ (PackageVersion.matches_ge ⟨1, 1, 1⟩ ⟨1, none, some 0⟩ ↔
       ¬ PackageVersion.matches_lt ⟨1, 1, 1⟩ ⟨1, none, some 0⟩) := by
  decide

/-- C9 (amended): for every version `v` and every *well-formed* bound `b`
(one satisfying the invariant documented on `VersionBound.patch`: the patch
component can only be present if the minor one is), exactly one of
`matches_eq`, `matches_gt`, `matches_lt` holds; consequently `matches_ge`
is the negation of `matches_lt` and `matches_le` the negation of
`matches_gt`. -/
theorem claim9_trichotomy (v : PackageVersion) (b : VersionBound)
    (hwf : b.patch.isSome → b.minor.isSome) :
    ((v.matches_eq b && !v.matches_gt b && !v.matches_lt b) ||
     (!v.matches_eq b && v.matches_gt b && !v.matches_lt b) ||
     (!v.matches_eq b && !v.matches_gt b && v.matches_lt b)) = true ∧
    (v.matches_ge b ↔ ¬ v.matches_lt b) ∧
    (v.matches_le b ↔ ¬ v.matches_gt b) := by
  obtain ⟨M, m, p⟩ := v
  obtain ⟨bM, bm, bp⟩ := b
  cases bm with
  | none =>
    have hbp : bp = none := by
      cases bp with
      | none => rfl
      | some x => simp at hwf
    subst hbp
    by_cases h : M = bM <;>
      simp [PackageVersion.matches_eq, PackageVersion.matches_gt,
        PackageVersion.matches_lt, PackageVersion.matches_ge,
        PackageVersion.matches_le, h] <;>
      omega
  | some m' =>
    cases bp with
    | none =>
      by_cases h1 : M = bM <;> by_cases h2 : m = m' <;>
        simp [PackageVersion.matches_eq, PackageVersion.matches_gt,
          PackageVersion.matches_lt, PackageVersion.matches_ge,
          PackageVersion.matches_le, h1, h2] <;>
        omega
    | some p' =>
      by_cases h1 : M = bM <;> by_cases h2 : m = m' <;> by_cases h3 : p = p' <;>
        simp [PackageVersion.matches_eq, PackageVersion.matches_gt,
          PackageVersion.matches_lt, PackageVersion.matches_ge,
          PackageVersion.matches_le, h1, h2, h3] <;>
        omega

/-- C9 (witness): the amended trichotomy applied at `v = 1.2.3`,
`b = 1.2` (a well-formed bound). -/
theorem claim9_witness :
    ((PackageVersion.matches_eq ⟨1, 2, 3⟩ ⟨1, some 2, none⟩ &&
      !PackageVersion.matches_gt ⟨1, 2, 3⟩ ⟨1, some 2, none⟩ &&
      !PackageVersion.matches_lt ⟨1, 2, 3⟩ ⟨1, some 2, none⟩) ||
     (!PackageVersion.matches_eq ⟨1, 2, 3⟩ ⟨1, some 2, none⟩ &&
      PackageVersion.matches_gt ⟨1, 2, 3⟩ ⟨1, some 2, none⟩ &&
      !PackageVersion.matches_lt ⟨1, 2, 3⟩ ⟨1, some 2, none⟩) ||
     (!PackageVersion.matches_eq ⟨1, 2, 3⟩ ⟨1, some 2, none⟩ &&
      !PackageVersion.matches_gt ⟨1, 2, 3⟩ ⟨1, some 2, none⟩ &&
      PackageVersion.matches_lt ⟨1, 2, 3⟩ ⟨1, some 2, none⟩)) = true ∧
    (PackageVersion.matches_ge ⟨1, 2, 3⟩ ⟨1, some 2, none⟩ ↔
      ¬ PackageVersion.matches_lt ⟨1, 2, 3⟩ ⟨1, some 2, none⟩) ∧
    (PackageVersion.matches_le ⟨1, 2, 3⟩ ⟨1, some 2, none⟩ ↔
      ¬ PackageVersion.matches_gt ⟨1, 2, 3⟩ ⟨1, some 2, none⟩) :=
  claim9_trichotomy ⟨1, 2, 3⟩ ⟨1, some 2, none⟩ (by decide)

lemma toDigitsRev_lt_ten : ∀ fuel n d, d ∈ toDigitsRev fuel n → d < 10 := by
  intro fuel
  induction fuel with
  | zero => intro n d h; simp [toDigitsRev] at h
  | succ fuel ih =>
    intro n d h
    by_cases hn : n = 0
    · simp [toDigitsRev, hn] at h
    · simp only [toDigitsRev, if_neg hn, List.mem_cons] at h
      rcases h with h | h
      · subst h; exact Nat.mod_lt _ (by omega)
      · exact ih _ _ h

lemma toDigitsRev_foldr : ∀ fuel n, n ≤ fuel →
    (toDigitsRev fuel n).foldr (fun d acc => acc * 10 + d) 0 = n := by
  intro fuel
  induction fuel with
  | zero => intro n h; interval_cases n; simp [toDigitsRev]
  | succ fuel ih =>
    intro n h
    by_cases hn : n = 0
    · simp [toDigitsRev, hn]
    · have hdiv : n / 10 ≤ fuel := by
        have := Nat.div_lt_self (Nat.pos_of_ne_zero hn) (by omega : 1 < 10)
        omega
      simp only [toDigitsRev, if_neg hn, List.foldr_cons, ih _ hdiv]
      omega

lemma digitChar_toNat : ∀ d, d < 10 → (Nat.digitChar d).toNat = 48 + d := by
  decide

lemma digitChar_isDigit : ∀ d, d < 10 → (Nat.digitChar d).isDigit = true := by
  decide

lemma isDigit_ne_dot {c : Char} (h : c.isDigit = true) : c ≠ '.' := by
  intro heq; subst heq; simp [Char.isDigit] at h

lemma isDigit_ne_plus {c : Char} (h : c.isDigit = true) : c ≠ '+' := by
  intro heq; subst heq; simp [Char.isDigit] at h

lemma natRepr_ne_nil (n : Nat) : natRepr n ≠ [] := by
  unfold natRepr
  by_cases hn : n = 0
  · simp [hn]
  · simp only [if_neg hn, ne_eq, List.reverse_eq_nil_iff, List.map_eq_nil_iff]
    cases hfuel : n with
    | zero => exact absurd hfuel hn
    | succ k => simp [toDigitsRev, hn]

lemma natRepr_isDigit (n : Nat) : ∀ c ∈ natRepr n, c.isDigit = true := by
  intro c hc
  unfold natRepr at hc
  by_cases hn : n = 0
  · simp [hn] at hc; subst hc; decide
  · simp only [if_neg hn, List.mem_reverse, List.mem_map] at hc
    obtain ⟨d, hd, rfl⟩ := hc
    exact digitChar_isDigit d (toDigitsRev_lt_ten n n d hd)

lemma foldr_digitChar (L : List Nat) (h : ∀ d ∈ L, d < 10) :
    L.foldr (fun d acc => acc * 10 + ((Nat.digitChar d).toNat - 48)) 0 =
      L.foldr (fun d acc => acc * 10 + d) 0 := by
  induction L with
  | nil => rfl
  | cons d rest ih =>
    simp only [List.foldr_cons]
    rw [ih (fun x hx => h x (List.mem_cons_of_mem _ hx)),
      digitChar_toNat d (h d (List.mem_cons_self _ _))]
    omega

lemma parseU32_natRepr (n : Nat) (hn : n < 4294967296) :
    parseU32 (natRepr n) = some n := by
  have hdig := natRepr_isDigit n
  have hne := natRepr_ne_nil n
  obtain ⟨c, t, hct⟩ : ∃ c t, natRepr n = c :: t := by
    cases h : natRepr n with
    | nil => exact absurd h hne
    | cons c t => exact ⟨c, t, rfl⟩
  have hplus : (natRepr n).head? ≠ some '+' := by
    rw [hct]
    simp only [List.head?_cons, ne_eq, Option.some_inj]
    exact isDigit_ne_plus (hdig c (hct ▸ List.mem_cons_self _ _))
  unfold parseU32
  rw [if_neg hplus]
  rw [if_neg (by simp [hct])]
  rw [if_pos (by simpa [List.all_eq_true] using hdig)]
  have hfold : (natRepr n).foldl (fun acc c => acc * 10 + (c.toNat - 48)) 0 = n := by
    unfold natRepr
    by_cases h0 : n = 0
    · simp [h0]
    · rw [if_neg h0, List.foldl_reverse, List.foldr_map]
      rw [foldr_digitChar _ (toDigitsRev_lt_ten n n)]
      exact toDigitsRev_foldr n n le_rfl
  rw [hfold, if_pos hn]

lemma splitOnDot_no_dot (l : List Char) (h : ∀ c ∈ l, c ≠ '.') :
    splitOnDot l = [l] := by
  induction l with
  | nil => rfl
  | cons c rest ih =>
    have hc : c ≠ '.' := h c (List.mem_cons_self _ _)
    simp only [splitOnDot, if_neg hc,
      ih (fun x hx => h x (List.mem_cons_of_mem _ hx))]

lemma splitOnDot_append (a b : List Char) (h : ∀ c ∈ a, c ≠ '.') :
    splitOnDot (a ++ '.' :: b) = a :: splitOnDot b := by
  induction a with
  | nil => simp [splitOnDot]
  | cons c rest ih =>
    have hc : c ≠ '.' := h c (List.mem_cons_self _ _)
    have ih' := ih (fun x hx => h x (List.mem_cons_of_mem _ hx))
    simp only [List.cons_append, splitOnDot, if_neg hc, List.append_eq, ih']

lemma nextVersionPart_cons (kind : String) (p : List Char)
    (ps : List (List Char)) (n : Nat) (h : p ≠ []) (hp : parseU32 p = some n) :
    nextVersionPart kind (p :: ps) = .ok (n, ps) := by
  simp [nextVersionPart, h, hp]

/-- C10: `Display` and `FromStr` round-trip on `PackageVersion`: formatting a
version as `"major.minor.patch"` and parsing the result returns `Ok` of the
same version. The hypotheses record that each component fits in a `u32`, as
the Rust field type guarantees. -/
theorem claim10_display_roundtrip (v : PackageVersion)
    (h1 : v.major < 4294967296) (h2 : v.minor < 4294967296)
    (h3 : v.patch < 4294967296) :
    PackageVersion.fromStr (PackageVersion.display v) = .ok v := by
  obtain ⟨M, m, p⟩ := v
  dsimp only at h1 h2 h3 ⊢
  have hM := fun c hc => isDigit_ne_dot (natRepr_isDigit M c hc)
  have hm := fun c hc => isDigit_ne_dot (natRepr_isDigit m c hc)
  have hsplit : splitOnDot (PackageVersion.display ⟨M, m, p⟩) =
      [natRepr M, natRepr m, natRepr p] := by
    unfold PackageVersion.display
    dsimp only
    rw [splitOnDot_append _ _ hM, splitOnDot_append _ _ hm,
      splitOnDot_no_dot _ (fun c hc => isDigit_ne_dot (natRepr_isDigit p c hc))]
  unfold PackageVersion.fromStr
  rw [hsplit]
  simp only [nextVersionPart_cons _ _ _ _ (natRepr_ne_nil M) (parseU32_natRepr M h1),
    nextVersionPart_cons _ _ _ _ (natRepr_ne_nil m) (parseU32_natRepr m h2),
    nextVersionPart_cons _ _ _ _ (natRepr_ne_nil p) (parseU32_natRepr p h3),
    List.isEmpty_nil, if_true]

/-- C10 (witness): the round-trip at the concrete version `1.20.3`. -/
theorem claim10_witness :
    PackageVersion.fromStr (PackageVersion.display ⟨1, 20, 3⟩) = .ok ⟨1, 20, 3⟩ :=
  claim10_display_roundtrip ⟨1, 20, 3⟩ (by decide) (by decide) (by decide)

/- ## HTML export (`crates/typst-html/src/lib.rs` and its submodules)

`lib.rs` is the only file of the crate in the excerpt; the submodules it
declares (`attr`, `css`, `dom`, `encode`, `convert`, `rules`, `tag`) are
modelled from the spec below and marked as such. Tag and attribute names are
modelled as plain strings; the vocabulary validation lives in the missing
`tag`/`attr` modules. -/

/-- Modelled from the spec: the `push` operation of the Attribute Collection
(missing `attr`/`dom` modules). Per spec §4.2 a push "appends or overwrites
per the fixed dedup policy" and "no two entries share a name after any
sequence of pushes"; following the spec's repeated "last write wins" policy,
a push for an existing name overwrites its value in place, otherwise the
pair is appended. Values are stored verbatim. -/
def dedupPush (l : List (String × String)) (key value : String) :
    List (String × String) :=
  if l.any (fun p => p.1 == key) then
    l.map (fun p => if p.1 == key then (key, value) else p)
  else l ++ [(key, value)]

/-- An element's attribute collection (`HtmlAttrs`): an ordered,
key-deduplicating sequence of (name, value) pairs. The lazily-allocated
empty state of the Rust type is a memory optimization with no observable
behaviour, so the model is a plain list. -/
abbrev HtmlAttrs := List (String × String)

/-- `HtmlAttrs::push` (modelled from the spec, the `attr`/`dom` modules are
missing from the excerpt). -/
def HtmlAttrs.push (l : HtmlAttrs) (attr : String) (value : String) :
    HtmlAttrs :=
  dedupPush l attr value

/-- The attribute names of a collection, in order. -/
def HtmlAttrs.keys (l : HtmlAttrs) : List String :=
  l.map Prod.fst

/-- Optional lookup of an attribute's value by name (spec §4.2 `get`). -/
def HtmlAttrs.get (l : HtmlAttrs) (attr : String) : Option String :=
  (l.find? (fun p => p.1 == attr)).map Prod.snd

/-- A finite sequence of pushes applied in order to a collection. -/
def HtmlAttrs.pushAll (l : HtmlAttrs) (ops : List (String × String)) :
    HtmlAttrs :=
  ops.foldl (fun acc op => acc.push op.1 op.2) l

lemma keys_dedupPush (l : List (String × String)) (a v : String) :
    (dedupPush l a v).map Prod.fst =
      if l.any (fun p => p.1 == a) then l.map Prod.fst
      else l.map Prod.fst ++ [a] := by
  unfold dedupPush
  split
  · rw [List.map_map]
    refine List.map_congr_left (fun p hp => ?_)
    by_cases h : p.1 = a
    · simp [Function.comp, h]
    · simp [Function.comp, h]
  · simp

lemma nodup_keys_dedupPush {l : List (String × String)} (a v : String)
    (h : (l.map Prod.fst).Nodup) : ((dedupPush l a v).map Prod.fst).Nodup := by
  rw [keys_dedupPush]
  split
  · exact h
  · rename_i hany
    have ha : a ∉ l.map Prod.fst := by
      intro hmem
      obtain ⟨p, hp, hpa⟩ := List.mem_map.mp hmem
      exact hany (List.any_eq_true.mpr ⟨p, hp, by simp [hpa]⟩)
    simp [List.nodup_append, h, List.disjoint_singleton, ha]

lemma find_overwrite (a v : String) :
    ∀ (l : List (String × String)), l.any (fun p => p.1 == a) = true →
    (l.map (fun p => if p.1 == a then (a, v) else p)).find? (fun p => p.1 == a) =
      some (a, v) := by
  intro l hany
  induction l with
  | nil => simp at hany
  | cons p rest ih =>
    by_cases hp : (p.1 == a) = true
    · rw [List.map_cons, if_pos hp, List.find?_cons_of_pos _ (by simp)]
    · have hp' : (p.1 == a) = false := by simpa using hp
      have hrest : rest.any (fun q => q.1 == a) = true := by
        simpa [List.any_cons, hp'] using hany
      rw [List.map_cons, if_neg hp, List.find?_cons_of_neg _ (by simp [hp'])]
      exact ih hrest

lemma get_dedupPush (l : List (String × String)) (a v : String) :
    HtmlAttrs.get (dedupPush l a v) a = some v := by
  unfold HtmlAttrs.get dedupPush
  by_cases hany : l.any (fun p => p.1 == a)
  · rw [if_pos hany, find_overwrite a v l hany]
    rfl
  · rw [if_neg hany]
    have hnone : l.find? (fun p => p.1 == a) = none := by
      rw [List.find?_eq_none]
      intro p hp hcontra
      exact hany (List.any_eq_true.mpr ⟨p, hp, hcontra⟩)
    rw [List.find?_append, hnone]
    simp

/-- C6: after any finite sequence of pushes on a collection whose names are
unique (in particular any collection built only by pushes, starting from the
empty one), no two entries share a name; and every pushed value is stored
verbatim — looking the name up right after the push returns exactly the
pushed text, with no escaping applied at storage time. -/
theorem claim6_attrs_dedup_verbatim (l : HtmlAttrs) (ops : List (String × String))
    (h : l.keys.Nodup) :
    (l.pushAll ops).keys.Nodup ∧
    ∀ a v, (l.push a v).get a = some v := by
  constructor
  · induction ops generalizing l with
    | nil => exact h
    | cons op rest ih =>
      exact ih (l.push op.1 op.2) (nodup_keys_dedupPush op.1 op.2 h)
  · intro a v
    exact get_dedupPush l a v

/-- C6 (witness): pushing `class=a` then `class=b` onto the empty collection
keeps the names unique, and a fresh push is readable back verbatim. -/
theorem claim6_witness :
    (HtmlAttrs.keys ([] : HtmlAttrs)).Nodup ∧
    ((HtmlAttrs.pushAll ([] : HtmlAttrs) [("class", "a"), ("class", "b")]).keys.Nodup ∧
     ∀ a v, (HtmlAttrs.push ([] : HtmlAttrs) a v).get a = some v) := by
  refine ⟨by simp [HtmlAttrs.keys], ?_⟩
  exact claim6_attrs_dedup_verbatim [] [("class", "a"), ("class", "b")]
    (by simp [HtmlAttrs.keys])

/-- Modelled from the spec: the Style Properties Model (the `css` module is
missing from the excerpt). Spec §4.3: typed CSS declarations held in a set
unique-by-property-name ("no property name appears twice (last write wins)"),
serialized in a canonical order so that output is deterministic regardless of
insertion order. -/
structure Properties where
  decls : List (String × String)
deriving DecidableEq

/-- Accumulate one property/value pair (spec §4.3), last write wins. -/
def Properties.push (ps : Properties) (property value : String) : Properties :=
  ⟨dedupPush ps.decls property value⟩

/-- A property collection accumulated from a list of declarations in order. -/
def Properties.fromList (l : List (String × String)) : Properties :=
  ⟨l.foldl (fun ds d => dedupPush ds d.1 d.2) []⟩

/-- Modelled from the spec: `Properties::into_inline_styles` produces either
no style attribute (if empty) or a single semicolon-joined, canonically
ordered (here: sorted by property name) declaration string. -/
def Properties.into_inline_styles (ps : Properties) : Option String :=
  if ps.decls.isEmpty then none
  else some (String.intercalate "; "
    ((ps.decls.insertionSort (fun a b => a.1 ≤ b.1)).map
      (fun d => d.1 ++ ": " ++ d.2)))

/-- An HTML element that can contain Typst content (`HtmlElem` in `lib.rs`):
a required tag, HTML attributes, and an optional body. The body's content
type (`Content` in the source) is an external collaborator, so it is a type
parameter here. -/
structure HtmlElem (β : Type) where
  tag : String
  attrs : HtmlAttrs := []
  body : Option β := none
deriving DecidableEq

/-- `HtmlElem::with_attr`: add an attribute to the element (the Rust code
routes the push through the lazily allocated attribute option, which is
observationally the plain push used here). -/
def HtmlElem.with_attr {β : Type} (e : HtmlElem β) (attr value : String) :
    HtmlElem β :=
  { e with attrs := e.attrs.push attr value }

/-- `HtmlElem::with_optional_attr`: adds the attribute to the element if
value is not `None`. -/
def HtmlElem.with_optional_attr {β : Type} (e : HtmlElem β) (attr : String)
    (value : Option String) : HtmlElem β :=
  match value with
  | some value => e.with_attr attr value
  | none => e

/-- The `style` attribute name (`attr::style` from the missing `attr`
module). -/
def attrStyle : String := "style"

/-- `HtmlElem::with_styles`: adds CSS styles to an element by attaching the
inline-style string, if any, as the `style` attribute. -/
def HtmlElem.with_styles {β : Type} (e : HtmlElem β) (properties : Properties) :
    HtmlElem β :=
  match properties.into_inline_styles with
  | some value => e.with_attr attrStyle value
  | none => e

/-- C5: `with_optional_attr` with `None` returns the element unchanged, and
with `Some x` it is exactly `with_attr` with `x`; both are pure functions of
the element, so there is no observable effect beyond the returned value. -/
theorem claim5_with_optional_attr {β : Type} (e : HtmlElem β) (a x : String) :
    e.with_optional_attr a none = e ∧
    e.with_optional_attr a (some x) = e.with_attr a x :=
  ⟨rfl, rfl⟩

/-- C4: if the property collection's inline-style conversion is empty,
`with_styles` returns the element unchanged; otherwise it is exactly
`with_attr` of the `style` attribute with the inline-style string — tag and
body are untouched, the value is readable back under `style`, and name
uniqueness of the attribute collection is preserved (so exactly one `style`
attribute results). -/
theorem claim4_with_styles {β : Type} (e : HtmlElem β) (p : Properties) :
    (p.into_inline_styles = none → e.with_styles p = e) ∧
    (∀ v, p.into_inline_styles = some v →
      e.with_styles p = e.with_attr attrStyle v ∧
      (e.with_styles p).tag = e.tag ∧
      (e.with_styles p).body = e.body ∧
      (e.with_styles p).attrs.get attrStyle = some v ∧
      (e.attrs.keys.Nodup → (e.with_styles p).attrs.keys.Nodup)) := by
  constructor
  · intro h
    unfold HtmlElem.with_styles
    rw [h]
  · intro v h
    have hw : e.with_styles p = e.with_attr attrStyle v := by
      unfold HtmlElem.with_styles
      rw [h]
    rw [hw]
    exact ⟨rfl, rfl, rfl, get_dedupPush e.attrs attrStyle v,
      fun hn => nodup_keys_dedupPush attrStyle v hn⟩

/-- C4 (witness): `with_styles` at the concrete element `div` and the
single declaration `color: red`. -/
theorem claim4_witness :
    Properties.into_inline_styles ⟨[("color", "red")]⟩ = some "color: red" ∧
    HtmlElem.with_styles (⟨"div", [], none⟩ : HtmlElem Unit) ⟨[("color", "red")]⟩ =
      HtmlElem.with_attr (⟨"div", [], none⟩ : HtmlElem Unit) attrStyle "color: red" :=
  ⟨rfl, ((claim4_with_styles (⟨"div", [], none⟩ : HtmlElem Unit)
    ⟨[("color", "red")]⟩).2 "color: red" rfl).1⟩

lemma foldl_dedupPush_eq : ∀ (l acc : List (String × String)),
    ((acc ++ l).map Prod.fst).Nodup →
    l.foldl (fun ds d => dedupPush ds d.1 d.2) acc = acc ++ l := by
  intro l
  induction l with
  | nil => intro acc _; simp
  | cons d rest ih =>
    intro acc h
    have hnotin : d.1 ∉ acc.map Prod.fst := by
      intro hmem
      have : (acc ++ d :: rest).map Prod.fst =
          acc.map Prod.fst ++ d.1 :: rest.map Prod.fst := by simp
      rw [this] at h
      exact (List.Nodup.not_mem (List.nodup_middle.mp h))
        (by simpa using Or.inl hmem)
    have hany : (acc.any (fun p => p.1 == d.1)) = false := by
      rw [List.any_eq_false]
      intro p hp
      simp only [beq_iff_eq]
      intro hcontra
      exact hnotin (hcontra ▸ List.mem_map_of_mem Prod.fst hp)
    have hstep : dedupPush acc d.1 d.2 = acc ++ [d] := by
      unfold dedupPush
      rw [if_neg (by simp [hany])]
    rw [List.foldl_cons, hstep, ih (acc ++ [d]) (by simpa using h)]
    simp

lemma sortDecls_eq_of_perm {l1 l2 : List (String × String)}
    (hperm : l1.Perm l2) (hnd : (l1.map Prod.fst).Nodup) :
    l1.insertionSort (fun a b => a.1 ≤ b.1) =
      l2.insertionSort (fun a b => a.1 ≤ b.1) := by
  haveI htot : IsTotal (String × String) (fun a b => a.1 ≤ b.1) :=
    ⟨fun a b => le_total a.1 b.1⟩
  haveI htrans : IsTrans (String × String) (fun a b => a.1 ≤ b.1) :=
    ⟨fun a b c h1 h2 => le_trans h1 h2⟩
  haveI hanti : IsAntisymm (String × String) (fun a b => a.1 < b.1) :=
    ⟨fun a b h1 h2 => absurd (lt_trans h1 h2) (lt_irrefl _)⟩
  set r : (String × String) → (String × String) → Prop :=
    fun a b => a.1 ≤ b.1 with hr
  have hp : (l1.insertionSort r).Perm (l2.insertionSort r) :=
    (List.perm_insertionSort r l1).trans
      (hperm.trans (List.perm_insertionSort r l2).symm)
  have sorted_lt : ∀ (l : List (String × String)),
      ((l.map Prod.fst).Nodup) →
      (l.insertionSort r).Pairwise (fun a b => a.1 < b.1) := by
    intro l hl
    have hs : (l.insertionSort r).Pairwise r := List.sorted_insertionSort r l
    have hnodup : ((l.insertionSort r).map Prod.fst).Nodup := by
      have := (List.perm_insertionSort r l).map Prod.fst
      exact (this.nodup_iff).mpr hl
    have hne : (l.insertionSort r).Pairwise (fun a b => a.1 ≠ b.1) :=
      List.pairwise_map.mp hnodup
    exact (hs.and hne).imp (fun hab => lt_of_le_of_ne hab.1 hab.2)
  have hnd2 : (l2.map Prod.fst).Nodup := ((hperm.map Prod.fst).nodup_iff).mp hnd
  exact List.eq_of_perm_of_sorted hp (sorted_lt l1 hnd) (sorted_lt l2 hnd2)

/-- C7: `into_inline_styles` is insertion-order independent — for any two
insertion orders of the same finite set of style declarations (a list of
declarations with pairwise-distinct property names, and any permutation of
it), accumulating them and converting to an inline style string produces
identical output. -/
theorem claim7_style_determinism (l1 l2 : List (String × String))
    (hperm : l1.Perm l2) (hnd : (l1.map Prod.fst).Nodup) :
    (Properties.fromList l1).into_inline_styles =
      (Properties.fromList l2).into_inline_styles := by
  have hnd2 : (l2.map Prod.fst).Nodup := ((hperm.map Prod.fst).nodup_iff).mp hnd
  have h1 : (Properties.fromList l1).decls = l1 :=
    foldl_dedupPush_eq l1 [] (by simpa using hnd)
  have h2 : (Properties.fromList l2).decls = l2 :=
    foldl_dedupPush_eq l2 [] (by simpa using hnd2)
  unfold Properties.into_inline_styles
  rw [h1, h2, sortDecls_eq_of_perm hperm hnd]
  rcases l1 with _ | ⟨d, rest⟩
  · rw [hperm.nil_eq]
  · have : l2 ≠ [] := by
      intro hcontra
      subst hcontra
      exact absurd hperm.symm.nil_eq (by simp)
    rcases l2 with _ | ⟨d2, rest2⟩
    · exact absurd rfl this
    · rfl

/-- C7 (witness): the two insertion orders of the set
`{color: red, margin: 0}` produce the same inline style string. -/
theorem claim7_witness :
    (Properties.fromList [("color", "red"), ("margin", "0")]).into_inline_styles =
      (Properties.fromList [("margin", "0"), ("color", "red")]).into_inline_styles :=
  claim7_style_determinism [("color", "red"), ("margin", "0")]
    [("margin", "0"), ("color", "red")]
    (List.Perm.swap ("margin", "0") ("color", "red") [])
    (by simp)

/- ### DOM tree, validity rules, converter and encoder

These live in the `dom`, `rules`, `convert` and `encode` submodules, which
are missing from the excerpt; they are modelled from the spec (§3, §4.4–4.7
and the scenarios of §8). -/

/-- Modelled from the spec: the DOM node tree built by conversion (spec §3;
the `dom` module is missing). The frame variant is irrelevant to the claims
settled here and is omitted. -/
inductive HtmlNode where
  | text (s : String)
  | element (tag : String) (attrs : List (String × String)) (children : List HtmlNode)

/-- Modelled from the spec: the diagnostics taxonomy of §7. -/
inductive HtmlDiag where
  | contentModelViolation
  | unknownIdentifier
  | renderingFailure
deriving DecidableEq

/-- Modelled from the spec: per-character escaping with named character
references (spec §4.7); `q` is true inside attribute values, where quote
characters are escaped as well. -/
def escapeChar (q : Bool) (c : Char) : List Char :=
  if c = '&' then ['&', 'a', 'm', 'p', ';']
  else if c = '<' then ['&', 'l', 't', ';']
  else if c = '>' then ['&', 'g', 't', ';']
  else if q && c = '"' then ['&', 'q', 'u', 'o', 't', ';']
  else [c]

/-- Escaping for text content (spec §4.7). -/
def escapeText (l : List Char) : List Char := l.flatMap (escapeChar false)

/-- Escaping for attribute values (spec §4.7): also escapes quotes. -/
def escapeAttr (l : List Char) : List Char := l.flatMap (escapeChar true)

/-- Modelled from the spec: the void tags of the validity-rule table (spec
§3, §4.6; glossary "Void element"), the HTML void elements. -/
def isVoidTag (t : String) : Bool :=
  t ∈ ["area", "base", "br", "col", "embed", "hr", "img", "input", "link",
       "meta", "param", "source", "track", "wbr"]

/-- Modelled from the spec: content-model constraints (spec §3 "Validity
rule"). -/
inductive ContentModel where
  | void
  | textOnly
  | any
deriving DecidableEq

/-- Modelled from the spec: the static validity-rule table, a pure function
from tag to content-model constraint (spec §4.6). -/
def tagRules (t : String) : ContentModel :=
  if isVoidTag t then .void else .any

/-- Serialization of an attribute list: ` name="escaped value"` per pair. -/
def encodeAttrs (attrs : List (String × String)) : List Char :=
  attrs.flatMap
    (fun av => ' ' :: av.1.data ++ '=' :: '"' :: escapeAttr av.2.data ++ ['"'])

mutual
/-- Modelled from the spec: the Encoder (spec §4.7) — depth-first
serialization in which void elements never receive a closing tag or
children, and text and attribute values are escaped. -/
def encodeNode : HtmlNode → List Char
  | .text s => escapeText s.data
  | .element t attrs children =>
    '<' :: t.data ++ encodeAttrs attrs ++ ['>'] ++
      (if isVoidTag t then []
       else encodeNodes children ++ ('<' :: '/' :: t.data ++ ['>']))
/-- Serialization of a node sequence in document order. -/
def encodeNodes : List HtmlNode → List Char
  | [] => []
  | n :: rest => encodeNode n ++ encodeNodes rest
end

/-- Modelled from the spec: conversion of one explicit element (spec §4.4,
§4.5 step 1): constructing an element whose tag's validity rule forbids a
body fails with a `ContentModelViolation`; otherwise the element node is
emitted with its (already converted) children. -/
def convertElem (tag : String) (attrs : List (String × String))
    (body : Option (List HtmlNode)) : Except HtmlDiag HtmlNode :=
  match tagRules tag, body with
  | .void, some _ => .error .contentModelViolation
  | _, _ => .ok (.element tag attrs (body.getD []))

/-- Whether a node is an explicit element with tag `html` (used for the
root-level shell-suppression check, spec §4.5 step 4 and lib.rs: "Normally,
Typst will generate `html`, `head`, and `body` tags for you. If you instead
create them with this function, Typst will omit its own tags."). -/
def isTopHtml : HtmlNode → Bool
  | .element t _ _ => t == "html"
  | _ => false

/-- Modelled from the spec: document-level conversion (spec §4.5 step 4):
if no explicit `html` element is present at the root, synthesize the
`<html><head>…</head><body>…</body></html>` shell around the content;
otherwise emit the author's nodes unchanged. -/
def convertDocument (nodes : List HtmlNode) : List HtmlNode :=
  if nodes.any isTopHtml then nodes
  else [.element "html" [] [.element "head" [] [], .element "body" [] nodes]]

mutual
/-- The number of `html`-tagged element nodes in a tree (each of which the
Encoder serializes as exactly one `<html …>` open tag). -/
def countHtml : HtmlNode → Nat
  | .text _ => 0
  | .element t _ children =>
    (if t == "html" then 1 else 0) + countHtmlList children
/-- The number of `html`-tagged element nodes in a node sequence. -/
def countHtmlList : List HtmlNode → Nat
  | [] => 0
  | n :: rest => countHtml n + countHtmlList rest
end

/-- C1: constructing an explicit `meta` element (a tag whose validity rule
forbids content) with a body supplied fails with `ContentModelViolation`;
without a body it succeeds, and the element serializes as a void tag — the
output is exactly the open tag, with no children and no closing tag. -/
theorem claim1_meta_void (attrs : List (String × String)) (b : List HtmlNode) :
    convertElem "meta" attrs (some b) = .error .contentModelViolation ∧
    convertElem "meta" attrs none = .ok (.element "meta" attrs []) ∧
    encodeNode (.element "meta" attrs []) =
      '<' :: "meta".data ++ encodeAttrs attrs ++ ['>'] := by
  refine ⟨rfl, rfl, ?_⟩
  simp [encodeNode, isVoidTag]

mutual
/-- Modelled from the spec: well-escapedness of encoder output (spec §4.7,
§8 "Escaping"). A character list is escape-safe when it contains no raw `<`
or `>` (nor, inside attribute values, a raw `"`), and every `&` starts one
of the character references `&amp;` `&lt;` `&gt;` `&quot;` — raw reserved
characters occur nowhere outside markup syntax positions. -/
def safeChars (q : Bool) : List Char → Bool
  | [] => true
  | c :: rest =>
    if c = '<' ∨ c = '>' ∨ (q = true ∧ c = '"') then false
    else if c = '&' then safeRef q rest
    else safeChars q rest
/-- The tail of an escape-safe list right after a `&`: it must spell out one
of the four named character references, followed by more escape-safe text. -/
def safeRef (q : Bool) : List Char → Bool
  | 'a' :: 'm' :: 'p' :: ';' :: r => safeChars q r
  | 'l' :: 't' :: ';' :: r => safeChars q r
  | 'g' :: 't' :: ';' :: r => safeChars q r
  | 'q' :: 'u' :: 'o' :: 't' :: ';' :: r => safeChars q r
  | _ => false
end

lemma safeChars_flatMap (q : Bool) (l : List Char) :
    safeChars q (l.flatMap (escapeChar q)) = true := by
  induction l with
  | nil => rfl
  | cons c rest ih =>
    rw [List.flatMap_cons]
    by_cases h1 : c = '&'
    · subst h1
      simp [escapeChar, safeChars, safeRef, ih]
    · by_cases h2 : c = '<'
      · subst h2
        simp [escapeChar, safeChars, safeRef, ih]
      · by_cases h3 : c = '>'
        · subst h3
          simp [escapeChar, safeChars, safeRef, ih]
        · by_cases h4 : q = true ∧ c = '"'
          · obtain ⟨hq, hc⟩ := h4
            subst hq
            subst hc
            simp [escapeChar, safeChars, safeRef, ih]
          · have he : escapeChar q c = [c] := by
              unfold escapeChar
              rw [if_neg h1, if_neg h2, if_neg h3, if_neg (by
                simp only [Bool.and_eq_true, decide_eq_true_eq]
                intro hcontra
                exact h4 ⟨hcontra.1, hcontra.2⟩)]
            have hcond : ¬(c = '<' ∨ c = '>' ∨ (q = true ∧ c = '"')) := by
              rintro (h | h | ⟨hq, h⟩)
              · exact h2 h
              · exact h3 h
              · exact h4 ⟨hq, h⟩
            rw [he, List.singleton_append]
            simp only [safeChars, if_neg hcond, if_neg h1]
            exact ih

/-- C2: escaping is complete — for every text payload and every attribute
value, the encoder's escaped output is escape-safe: it contains no raw `<`
or `>` (in attribute values additionally no raw `"`), and every remaining
`&` is the start of a named character reference, so all reserved characters
of the input were replaced by references. -/
theorem claim2_escaping (s : String) :
    safeChars false (escapeText s.data) = true ∧
    safeChars true (escapeAttr s.data) = true :=
  ⟨safeChars_flatMap false s.data, safeChars_flatMap true s.data⟩

/-- C3: a document whose root content contains an explicit `html` element
is emitted without the synthesized shell — and when the root content
contains exactly one `html` element overall, the document that is serialized
contains exactly one `html` element, i.e. exactly one `<html …>` open tag
is encoded (the encoder emits one open tag per element node). -/
theorem claim3_shell_suppression (nodes : List HtmlNode)
    (h : nodes.any isTopHtml = true) :
    convertDocument nodes = nodes ∧
    (countHtmlList nodes = 1 → countHtmlList (convertDocument nodes) = 1) := by
  constructor
  · unfold convertDocument
    rw [if_pos h]
  · intro hcount
    unfold convertDocument
    rw [if_pos h]
    exact hcount

/-- C3 (witness): shell suppression at a concrete one-element document. -/
theorem claim3_witness :
    convertDocument [.element "html" [] [.text "hi"]] =
      [.element "html" [] [.text "hi"]] ∧
    (countHtmlList [.element "html" [] [.text "hi"]] = 1 →
      countHtmlList (convertDocument [.element "html" [] [.text "hi"]]) = 1) :=
  claim3_shell_suppression [.element "html" [] [.text "hi"]] (by decide)

/-- C8: serializing an explicit `div` element whose `style` attribute is
built from the declarations `color: red` then `color: blue` (same property
twice) yields a single style attribute with value `color: blue` — the later
write wins in the style-property collection. -/
theorem claim8_last_write_wins :
    (HtmlElem.with_styles (⟨"div", [], none⟩ : HtmlElem Unit)
        (Properties.fromList [("color", "red"), ("color", "blue")])).attrs =
      [("style", "color: blue")] ∧
    encodeNode (.element "div"
        (HtmlElem.with_styles (⟨"div", [], none⟩ : HtmlElem Unit)
          (Properties.fromList [("color", "red"), ("color", "blue")])).attrs []) =
      "<div style=\"color: blue\"></div>".data := by
  decide
